import Mathlib

/-!
Shallow embedding of the ermalloc protected-allocation core
(src/policies.rs and src/ffi.rs).

Buffers are lists of byte values (`List Nat`); Rust panics are modelled by
`Option` (`none` = panic/abort).  The external Reed-Solomon codec and the
AES-128-CTR primitive are out of scope of the repository and are modelled
abstractly: the codec as a record of encode/decode/corruption-check
functions, the cipher as a keystream function of the nonce, applied by XOR
(AES-CTR with the fixed key is exactly an XOR with a nonce-determined
keystream, and is an involution).
-/

namespace Ermalloc

/-- MAX_POLICIES in policies.rs. -/
def MAX_POLICIES : Nat := 3

/-- NONCE_LEN in policies.rs (AES-CTR nonce length in bytes). -/
def NONCE_LEN : Nat := 16

/-- Bytes of the static NONCE in policies.rs (the sixteen ASCII bytes of
the fixed nonce string). -/
def NONCE : List Nat := [97, 110, 100, 32, 115, 101, 99, 114, 101, 116, 32, 110, 111, 110, 99, 101]

/-- Policy enum of policies.rs: a tagged variant with the per-layer parameter. -/
inductive Policy where
  | Nil : Policy
  | Redundancy : Nat → Policy
  | ReedSolomon : Nat → Policy
  | Encrypted : Policy
deriving DecidableEq

/-- Abstract interface of the external reed_solomon crate: `encode k data`
returns the parity bytes for parity length `k`; `decode k buffer` returns the
corrected whole codeword together with the reported error count (`none`
models a decoder error `Err(_)`); `chkCorrupt` is `Decoder::is_corrupted`. -/
structure RSCodec where
  encode : Nat → List Nat → List Nat
  decode : Nat → List Nat → Option (List Nat × Nat)
  chkCorrupt : Nat → List Nat → Bool

/-- Abstract AES-128-CTR keystream for the fixed key: nonce → byte position →
keystream byte.  `apply_keystream` is XOR with this stream. -/
abbrev Keystream := List Nat → Nat → Nat

/-- Cipher.apply_keystream: XOR every data byte with the keystream byte at
its position. -/
def xorKeystream (ks : Keystream) (nonce : List Nat) (data : List Nat) : List Nat :=
  (List.range data.length).map (fun i => data.getD i 0 ^^^ ks nonce i)

/-- Policy::is_red. -/
def Policy.is_red : Policy → Bool
  | .Redundancy _ => true
  | _ => false

/-- Policy::is_rs. -/
def Policy.is_rs : Policy → Bool
  | .ReedSolomon _ => true
  | _ => false

/-- Policy::is_crypt. -/
def Policy.is_crypt : Policy → Bool
  | .Encrypted => true
  | _ => false

/-- Data-portion length of Policy::split_buffer / split_buffer_mut for a
buffer of length `len`; `none` models the panics (non-divisible redundancy
size, buffer not strictly larger than the parity / nonce region, and the
out-of-range split for `Nil` on an empty buffer). -/
def Policy.data_len : Policy → Nat → Option Nat
  | .Redundancy n, len =>
      if n = 0 then none
      else if len % n ≠ 0 then none
      else some (len / n)
  | .ReedSolomon k, len => if len ≤ k then none else some (len - k)
  | .Encrypted, len => if len ≤ NONCE_LEN then none else some (len - NONCE_LEN)
  | .Nil, len => if len = 0 then none else some (len - 1)

/-- Policy::split_buffer: split the buffer into (data, ecc/meta). -/
def Policy.split_buffer (p : Policy) (buffer : List Nat) : Option (List Nat × List Nat) :=
  (p.data_len buffer.length).map (fun d => (buffer.take d, buffer.drop d))

/-- The list of bit values at position `bit` of byte `index` across the
`nCopies` copies (the iterator inside correct_bits_redundant's count loop). -/
def voteBits (buffer : List Nat) (nCopies dataLen index bit : Nat) : List Nat :=
  (List.range nCopies).map (fun i => (buffer.getD (i * dataLen + index) 0 >>> bit) &&& 1)

/-- One bit position of the majority vote in correct_bits_redundant: count the
0 and 1 bits at `bit` over the `nCopies` copies of byte `index` (count[0] and
count[1] in the source, here the two count expressions); a strict majority of
ones sets the bit in the accumulated corrected byte; the error count
accumulates the minority count. -/
def voteStep (buffer : List Nat) (nCopies dataLen index : Nat) (acc : Nat × Nat) (bit : Nat) :
    Nat × Nat :=
  if (voteBits buffer nCopies dataLen index bit).count 0 <
      (voteBits buffer nCopies dataLen index bit).count 1
  then (acc.1 ||| (1 <<< bit), acc.2 + (voteBits buffer nCopies dataLen index bit).count 0)
  else (acc.1, acc.2 + (voteBits buffer nCopies dataLen index bit).count 1)

/-- The vote loop of correct_bits_redundant over the 8 bit positions,
returning (corrected byte, error count). -/
def voteByte (buffer : List Nat) (nCopies dataLen index : Nat) : Nat × Nat :=
  (List.range 8).foldl (voteStep buffer nCopies dataLen index) (0, 0)

/-- The write-back loop of correct_bits_redundant: store the corrected byte
at position `copy * dataLen + index` for every copy. -/
def writeCopies (buffer : List Nat) (nCopies dataLen index corrected : Nat) : List Nat :=
  (List.range nCopies).foldl (fun buf copy => buf.set (copy * dataLen + index) corrected) buffer

/-- correct_bits_redundant in policies.rs.  `none` models the panics: modulus
by zero copies, non-divisible buffer, and the out-of-bounds byte reads when
`index` is not below the per-copy length. -/
def correct_bits_redundant (buffer : List Nat) (nCopies index : Nat) : Option (List Nat × Nat) :=
  if nCopies = 0 then none
  else if buffer.length % nCopies ≠ 0 then none
  else
    let dataLen := buffer.length / nCopies
    if dataLen ≤ index then none
    else
      let v := voteByte buffer nCopies dataLen index
      some (writeCopies buffer nCopies dataLen index v.1, v.2)

/-- Policy::is_corrupted.  The split is performed first (so its panic
conditions apply to every variant); Redundancy compares every byte of every
copy against copy 0, ReedSolomon delegates to the codec, others report false. -/
def Policy.is_corrupted (codec : RSCodec) (p : Policy) (buffer : List Nat) : Option Bool :=
  (p.split_buffer buffer).map (fun s =>
    match p with
    | .Redundancy n =>
        (List.range s.1.length).any (fun byte =>
          (List.range' 1 (n - 1)).any (fun copy =>
            decide (buffer.getD (copy * s.1.length + byte) 0 ≠ buffer.getD byte 0)))
    | .ReedSolomon k => codec.chkCorrupt k buffer
    | _ => false)

/-- One step of the per-index summation in Policy::correct_buffer for
Redundancy: run correct_bits_redundant at `index` and add its error count. -/
def redCorrectStep (nCopies : Nat) (acc : List Nat × Nat) (index : Nat) :
    Option (List Nat × Nat) :=
  (correct_bits_redundant acc.1 nCopies index).map (fun r => (r.1, acc.2 + r.2))

/-- Policy::correct_buffer.  Redundancy votes byte by byte over the whole
buffer; ReedSolomon attempts a decode, returning 0 and leaving the buffer
unchanged on decoder failure and otherwise overwriting the whole codeword
(the length guard models the clone_from_slice length checks); Nil and
Encrypted return 0. -/
def Policy.correct_buffer (codec : RSCodec) : Policy → List Nat → Option (List Nat × Nat)
  | .Redundancy n, buffer =>
      ((Policy.Redundancy n).split_buffer buffer).bind (fun s =>
        (List.range s.1.length).foldlM (redCorrectStep n) (buffer, 0))
  | .ReedSolomon k, buffer =>
      match codec.decode k buffer with
      | none => some (buffer, 0)
      | some r =>
          if buffer.length ≤ k then none
          else if r.1.length = buffer.length then some (r.1, r.2) else none
  | _, buffer => some (buffer, 0)

/-- Policy::apply_policy for a single layer.  Redundancy copies the data into
every trailing copy slot (the `dataLen = 0` guard models the
chunks_exact_mut panic on a zero chunk size); ReedSolomon writes freshly
computed parity (the length guard models copy_from_slice); Encrypted XORs
the keystream for the fixed nonce over the data and stores that nonce. -/
def Policy.apply_policy (codec : RSCodec) (ks : Keystream) : Policy → List Nat → Option (List Nat)
  | .Redundancy n, buffer =>
      if n = 0 then none
      else if buffer.length % n ≠ 0 then none
      else
        let dataLen := buffer.length / n
        if dataLen = 0 then none
        else some (List.flatten (List.replicate n (buffer.take dataLen)))
  | .ReedSolomon k, buffer =>
      if buffer.length ≤ k then none
      else
        let data := buffer.take (buffer.length - k)
        let parity := codec.encode k data
        if parity.length = k then some (data ++ parity) else none
  | .Encrypted, buffer =>
      if buffer.length ≤ NONCE_LEN then none
      else some (xorKeystream ks NONCE (buffer.take (buffer.length - NONCE_LEN)) ++ NONCE)
  | .Nil, buffer => some buffer

/-- The fixed three-slot policy array of an AllocBlock. -/
structure PolicySet where
  p0 : Policy
  p1 : Policy
  p2 : Policy
deriving DecidableEq

/-- Indexing `policies[index]` (only indices below MAX_POLICIES are ever
used by the walks). -/
def PolicySet.get (ps : PolicySet) : Nat → Policy
  | 0 => ps.p0
  | 1 => ps.p1
  | _ => ps.p2

/-- One reverse-iteration step of AllocBlock::size_of. -/
def stepSize (s : Nat) : Policy → Nat
  | .Redundancy n => s * n
  | .ReedSolomon k => s + k
  | .Encrypted => s + NONCE_LEN
  | .Nil => s

/-- AllocBlock::size_of: fold the slots in reverse order (2, 1, 0) over the
requested length. -/
def size_of (desired_size : Nat) (ps : PolicySet) : Nat :=
  stepSize (stepSize (stepSize desired_size ps.p2) ps.p1) ps.p0

/-- AllocBlock of policies.rs: the header fields together with the backing
buffer the header precedes on the heap. -/
structure AllocBlock where
  policies : PolicySet
  buffer_size : Nat
  length : Nat
  weak_exists : Bool
  buffer : List Nat
deriving DecidableEq

/-- AllocBlock::apply_policy_helper.  The fuel argument is MAX_POLICIES
minus the slot index, so fuel 0 is the `index == MAX_POLICIES` stop.  A `Nil`
slot returns immediately (stopping the whole walk); otherwise the walk
recurses into the data portion and then applies the slot's policy to the
full buffer. -/
def apply_policy_go (codec : RSCodec) (ks : Keystream) (ps : PolicySet) :
    Nat → Nat → List Nat → Option (List Nat)
  | 0, _, buffer => some buffer
  | fuel + 1, index, buffer =>
    match ps.get index with
    | .Nil => some buffer
    | p =>
        (p.split_buffer buffer).bind (fun s =>
          (apply_policy_go codec ks ps fuel (index + 1) s.1).bind (fun d =>
            p.apply_policy codec ks (d ++ s.2)))

/-- AllocBlock::correct_bits_helper.  `Nil` and `Encrypted` slots return 0
immediately; Redundancy recurses into each of the `n` chunks and then votes
over the reassembled buffer; ReedSolomon recurses into the data portion and
then corrects the full buffer. -/
def correct_bits_go (codec : RSCodec) (ps : PolicySet) :
    Nat → Nat → List Nat → Option (List Nat × Nat)
  | 0, _, buffer => some (buffer, 0)
  | fuel + 1, index, buffer =>
    match ps.get index with
    | .Nil => some (buffer, 0)
    | .Encrypted => some (buffer, 0)
    | .Redundancy n =>
        if n = 0 then none
        else if buffer.length % n ≠ 0 then none
        else
          let dataLen := buffer.length / n
          if dataLen = 0 then none
          else
            (((List.range n).map (fun i => (buffer.drop (i * dataLen)).take dataLen)).mapM
                (correct_bits_go codec ps fuel (index + 1))).bind (fun results =>
              ((Policy.Redundancy n).correct_buffer codec
                  (List.flatten (results.map Prod.fst))).map
                (fun r => (r.1, (results.map Prod.snd).sum + r.2)))
    | .ReedSolomon k =>
        ((Policy.ReedSolomon k).split_buffer buffer).bind (fun s =>
          (correct_bits_go codec ps fuel (index + 1) s.1).bind (fun d =>
            ((Policy.ReedSolomon k).correct_buffer codec (d.1 ++ s.2)).map
              (fun r => (r.1, d.2 + r.2))))

/-- AllocBlock::is_corrupted_helper: same shape as the correction walk with a
short-circuiting boolean OR; `Nil` and `Encrypted` slots report false. -/
def is_corrupted_go (codec : RSCodec) (ps : PolicySet) :
    Nat → Nat → List Nat → Option Bool
  | 0, _, _ => some false
  | fuel + 1, index, buffer =>
    match ps.get index with
    | .Nil => some false
    | .Encrypted => some false
    | p =>
        (p.split_buffer buffer).bind (fun s =>
          (is_corrupted_go codec ps fuel (index + 1) s.1).bind (fun inner =>
            if inner then some true else p.is_corrupted codec buffer))

/-- AllocBlock::apply_policy: run the recursive application walk from slot 0
over the whole backing buffer. -/
def AllocBlock.apply_policy (codec : RSCodec) (ks : Keystream) (b : AllocBlock) :
    Option AllocBlock :=
  (apply_policy_go codec ks b.policies MAX_POLICIES 0 b.buffer).map
    (fun buf => { b with buffer := buf })

/-- AllocBlock::correct_buffer: run the recursive correction walk from slot 0,
returning the updated block and the total error count. -/
def AllocBlock.correct_buffer (codec : RSCodec) (b : AllocBlock) :
    Option (AllocBlock × Nat) :=
  (correct_bits_go codec b.policies MAX_POLICIES 0 b.buffer).map
    (fun r => ({ b with buffer := r.1 }, r.2))

/-- AllocBlock::is_corrupted: run the corruption-check walk from slot 0. -/
def AllocBlock.is_corrupted (codec : RSCodec) (b : AllocBlock) : Option Bool :=
  is_corrupted_go codec b.policies MAX_POLICIES 0 b.buffer

/-- AllocBlock::new.  The backing buffer has size_of(size, policies) bytes:
zeroed allocation gives zeros and then runs apply_policy; a plain allocation
leaves the (unspecified) contents, modelled by the caller-chosen `init`
bytes normalised to the buffer size, and does not run apply_policy. -/
def AllocBlock.new (codec : RSCodec) (ks : Keystream) (size : Nat) (ps : PolicySet)
    (zeroed : Bool) (init : List Nat) : Option AllocBlock :=
  let bs := size_of size ps
  let buf := if zeroed then List.replicate bs 0 else init.take bs ++ List.replicate (bs - init.length) 0
  let b : AllocBlock :=
    { policies := ps, buffer_size := bs, length := size, weak_exists := false, buffer := buf }
  if zeroed then b.apply_policy codec ks else some b

/-- AllocBlock::renew: reallocate to the new layout (bytes beyond the
preserved prefix are unspecified, modelled as zeros), update the header
fields and run apply_policy unconditionally. -/
def AllocBlock.renew (codec : RSCodec) (ks : Keystream) (b : AllocBlock) (new_size : Nat)
    (new_ps : PolicySet) : Option AllocBlock :=
  let nbs := size_of new_size new_ps
  let buf := b.buffer.take nbs ++ List.replicate (nbs - b.buffer.length) 0
  AllocBlock.apply_policy codec ks
    { policies := new_ps, buffer_size := nbs, length := new_size, weak_exists := false,
      buffer := buf }

/-- The buffer size AllocBlock::drop_ref recomputes from the header fields
when releasing the allocation. -/
def AllocBlock.drop_size (b : AllocBlock) : Nat :=
  size_of b.length b.policies

/-- policies.iter().position(pred) followed by the indexed access: the first
policy in slot order satisfying the predicate. -/
def find_policy (ps : PolicySet) (pred : Policy → Bool) : Option Policy :=
  if pred ps.p0 then some ps.p0
  else if pred ps.p1 then some ps.p1
  else if pred ps.p2 then some ps.p2
  else none

/-- Peel one layer off the working window in encrypt_buffer/decrypt_buffer:
if a policy of the requested kind is present, the window shrinks to its data
portion (each split takes a prefix, so a window is just a length). -/
def peel (ps : PolicySet) (pred : Policy → Bool) (w : Nat) : Option Nat :=
  match find_policy ps pred with
  | some p => p.data_len w
  | none => some w

/-- AllocBlock::encrypt_buffer: peel the Redundancy data portion, then the
ReedSolomon data portion; if an Encrypted policy is present, XOR the
keystream for the fixed NONCE over the remaining data portion and store
NONCE in the meta bytes. -/
def AllocBlock.encrypt_buffer (ks : Keystream) (b : AllocBlock) : Option AllocBlock :=
  (peel b.policies Policy.is_red b.buffer.length).bind (fun w1 =>
    (peel b.policies Policy.is_rs w1).bind (fun w2 =>
      match find_policy b.policies Policy.is_crypt with
      | some p =>
          (p.data_len w2).map (fun d =>
            { b with buffer :=
                xorKeystream ks NONCE (b.buffer.take d) ++ NONCE ++ b.buffer.drop (d + NONCE_LEN) })
      | none => some b))

/-- AllocBlock::decrypt_buffer: identical peeling, but the nonce is read from
the meta bytes before the keystream is applied, and the meta bytes are left
in place. -/
def AllocBlock.decrypt_buffer (ks : Keystream) (b : AllocBlock) : Option AllocBlock :=
  (peel b.policies Policy.is_red b.buffer.length).bind (fun w1 =>
    (peel b.policies Policy.is_rs w1).bind (fun w2 =>
      match find_policy b.policies Policy.is_crypt with
      | some p =>
          (p.data_len w2).map (fun d =>
            { b with buffer :=
                xorKeystream ks ((b.buffer.drop d).take NONCE_LEN) (b.buffer.take d) ++
                  b.buffer.drop d })
      | none => some b))

/-- A store of caller bytes through the user pointer into the backing buffer
(as the repository's tests do through `buffer()`). -/
def write_bytes (b : AllocBlock) (offset : Nat) (src : List Nat) : AllocBlock :=
  { b with buffer := b.buffer.take offset ++ src ++ b.buffer.drop (offset + src.length) }

/-- ErPolicyRaw tags of ffi.rs. -/
inductive ErPolicyRaw where
  | Nil : ErPolicyRaw
  | Redundancy : ErPolicyRaw
  | ReedSolomon : ErPolicyRaw
  | Encrypted : ErPolicyRaw
deriving DecidableEq

/-- One marshalled node of the caller's ErPolicyListRaw list: the tag and the
optional u32 parameter behind policy_data (`none` = null pointer). -/
structure ErPolicyListNode where
  policy : ErPolicyRaw
  policy_data : Option Nat
deriving DecidableEq

/-- default_redundancy in ffi.rs. -/
def default_redundancy : Nat := 3

/-- default_rs in ffi.rs. -/
def default_rs : Nat := 3

/-- Policy::from(ErPolicyListNonNull): null policy_data yields the default
parameter. -/
def nodeToPolicy (nd : ErPolicyListNode) : Policy :=
  match nd.policy with
  | .Nil => .Nil
  | .Redundancy => .Redundancy (nd.policy_data.getD default_redundancy)
  | .ReedSolomon => .ReedSolomon (nd.policy_data.getD default_rs)
  | .Encrypted => .Encrypted

/-- The slot assignment of the parsing loop in setup_policy_helper:
Redundancy to slot 0, ReedSolomon to slot 1, Encrypted to slot 2, Nil
ignored. -/
def assignSlot (ps : PolicySet) (p : Policy) : PolicySet :=
  match p with
  | .Redundancy _ => { ps with p0 := p }
  | .ReedSolomon _ => { ps with p1 := p }
  | .Encrypted => { ps with p2 := p }
  | .Nil => ps

/-- The parsing loop of setup_policy_helper over the marshalled node list. -/
def parse_policies (nodes : List ErPolicyListNode) : PolicySet :=
  nodes.foldl (fun ps nd => assignSlot ps (nodeToPolicy nd)) ⟨.Nil, .Nil, .Nil⟩

/-- setup_policy_helper in ffi.rs.  Outer `none` models the fatal panic when
the list has more than MAX_POLICIES nodes; `some none` is the `None` return
for a zero size (taken before any node is examined); an empty node list is
the null policies pointer.  The function also computes a compacted
`policy_arr_ordered`, but that array is discarded and the slot-indexed array
is returned, so the dead computation has no observable effect and is not
modelled. -/
def setup_policy_helper (size : Nat) (nodes : List ErPolicyListNode) :
    Option (Option PolicySet) :=
  if size = 0 then some none
  else if MAX_POLICIES < nodes.length then none
  else some (some (parse_policies nodes))

/-- Size limit of the target's size_t, for checked_mul. -/
def USIZE_LIMIT : Nat := 2 ^ 64

/-- er_calloc in ffi.rs: null on multiplication overflow, null when the
element size is zero (setup_policy_helper receives `size`, not the product),
otherwise a zeroed allocation of `nmemb * size` bytes.  Outer `none` models
a panic; the inner option is the returned pointer (`none` = null). -/
def er_calloc (codec : RSCodec) (ks : Keystream) (nmemb size : Nat)
    (nodes : List ErPolicyListNode) : Option (Option AllocBlock) :=
  if USIZE_LIMIT ≤ nmemb * size then some none
  else
    match setup_policy_helper size nodes with
    | none => none
    | some none => some none
    | some (some ps) =>
        match AllocBlock.new codec ks (nmemb * size) ps true [] with
        | none => none
        | some b => some (some b)

/-- er_read_buf in ffi.rs: run the full correction, bail out early when the
count reinterpreted as a C int is negative, decrypt, copy `len` bytes at
`offset` out of the backing buffer to the caller (the middle component;
`none` when the early bailout left the caller buffer untouched), re-encrypt,
and return the correction count.  The bounds guards model the split_at_mut
panics. -/
def er_read_buf (codec : RSCodec) (ks : Keystream) (b : AllocBlock) (offset len : Nat) :
    Option (AllocBlock × Option (List Nat) × Nat) :=
  (b.correct_buffer codec).bind (fun r =>
    if 2 ^ 31 ≤ r.2 % 2 ^ 32 then some (r.1, none, r.2)
    else
      (r.1.decrypt_buffer ks).bind (fun b2 =>
        if b2.buffer.length < offset then none
        else if b2.buffer.length - offset < len then none
        else
          (b2.encrypt_buffer ks).map
            (fun b3 => (b3, some ((b2.buffer.drop offset).take len), r.2))))

/-- Last node of the given kind in the caller's list (spec wording: a later
node of the same kind overwrites an earlier one). -/
def lastOfKind (nodes : List ErPolicyListNode) (t : ErPolicyRaw) : Option ErPolicyListNode :=
  (nodes.filter (fun nd => decide (nd.policy = t))).getLast?

/-- Modelled from the spec: the policy the parsed array should hold in the
fixed slot of kind `t` — the conversion of the last supplied node of that
kind, or Nil when the kind was not supplied. -/
def spec_slot (nodes : List ErPolicyListNode) (t : ErPolicyRaw) : Policy :=
  match lastOfKind nodes t with
  | some nd => nodeToPolicy nd
  | none => .Nil

/-- A trivial concrete codec instance (decoder always fails, corruption check
always clean) used to close concrete scenarios whose control flow never
reaches the codec. -/
def rsCodec0 : RSCodec :=
  { encode := fun k _ => List.replicate k 0
    decode := fun _ _ => none
    chkCorrupt := fun _ _ => false }

/-- A concrete codec instance whose decoder succeeds, returning the input
codeword unchanged with a reported error count of 2. -/
def rsCodec1 : RSCodec :=
  { encode := fun k _ => List.replicate k 0
    decode := fun _ b => some (b, 2)
    chkCorrupt := fun _ _ => false }

/-- The all-zero concrete keystream. -/
def ks0 : Keystream := fun _ _ => 0

/-- The all-one concrete keystream. -/
def ks1 : Keystream := fun _ _ => 1

/-- The all-Nil policy set. -/
def psNil3 : PolicySet := ⟨.Nil, .Nil, .Nil⟩

/-- Policy set of the ReedSolomon-only scenario (canonical slot layout). -/
def psC1 : PolicySet := ⟨.Nil, .ReedSolomon 3, .Nil⟩

/-- The ReedSolomon-only scenario block after writing 0x0F, applying, and
flipping the data byte to 0x0B. -/
def blkC1 : AllocBlock :=
  { policies := psC1, buffer_size := 4, length := 1, weak_exists := false,
    buffer := [11, 0, 0, 0] }

/-- Policy set of the encryption-only scenario (canonical slot layout). -/
def psC3 : PolicySet := ⟨.Nil, .Nil, .Encrypted⟩

/-- The 16 plaintext bytes of the encryption scenario. -/
def ptC3 : List Nat := List.replicate 16 65

/-- The encryption-only scenario block after the plaintext write and apply. -/
def blkC3 : AllocBlock :=
  { policies := psC3, buffer_size := 32, length := 16, weak_exists := false,
    buffer := ptC3 ++ List.replicate 16 0 }

/-- Policy set of the redundancy-only scenario. -/
def psC6 : PolicySet := ⟨.Redundancy 3, .Nil, .Nil⟩

/-- The redundancy scenario block after writing the three copy bytes. -/
def blkC6 : AllocBlock :=
  { policies := psC6, buffer_size := 3, length := 1, weak_exists := false,
    buffer := [15, 10, 0] }

/-- A freshly allocated two-byte block with no policies. -/
def blkC7a : AllocBlock :=
  { policies := psNil3, buffer_size := 2, length := 2, weak_exists := false,
    buffer := [0, 0] }

/-- The block blkC7a after renewing to five bytes with no policies. -/
def blkC7b : AllocBlock :=
  { policies := psNil3, buffer_size := 5, length := 5, weak_exists := false,
    buffer := [0, 0, 0, 0, 0] }

/-- The zeroed block of user length 0 for a given policy set (what er_calloc
builds for a zero product before apply_policy runs). -/
def zeroBlock (ps : PolicySet) : AllocBlock :=
  { policies := ps, buffer_size := size_of 0 ps, length := 0, weak_exists := false,
    buffer := List.replicate (size_of 0 ps) 0 }

theorem apply_policy_fields (codec : RSCodec) (ks : Keystream) (b b' : AllocBlock)
    (h : b.apply_policy codec ks = some b') :
    b'.policies = b.policies ∧ b'.buffer_size = b.buffer_size ∧ b'.length = b.length := by
  have h2 : (apply_policy_go codec ks b.policies MAX_POLICIES 0 b.buffer).map
      (fun buf => { b with buffer := buf }) = some b' := h
  cases hgo : apply_policy_go codec ks b.policies MAX_POLICIES 0 b.buffer with
  | none => rw [hgo] at h2; exact Option.noConfusion h2
  | some buf =>
      rw [hgo] at h2
      cases Option.some.inj h2
      exact ⟨rfl, rfl, rfl⟩

/-- C1: evaluation of the code at the claimed scenario.  With
P = [Nil, ReedSolomon(3), Nil] (the canonical slot layout the FFI produces
for a ReedSolomon-only request), slot 0 holds Nil and each recursive walk
returns as soon as it sees it, so apply is a no-op, is_corrupted reports
false (the claim says true), correct_buffer reports 0 errors (the claim
says 1), and the flipped data byte stays 0x0B (the claim says it is
restored to 0x0F). -/
theorem c1_nil_slot_disables_reed_solomon :
    ((AllocBlock.new rsCodec0 ks0 1 psC1 false [0, 0, 0, 0]).bind
        (fun b => (write_bytes b 0 [15]).apply_policy rsCodec0 ks0)).map
          (fun b => write_bytes b 0 [11]) = some blkC1 ∧
    blkC1.is_corrupted rsCodec0 = some false ∧
    (blkC1.correct_buffer rsCodec0).map (fun r => (r.1.buffer, r.2)) = some ([11, 0, 0, 0], 0) ∧
    blkC1.buffer.getD 0 0 = 11 :=
  ⟨rfl, rfl, rfl, rfl⟩

/-- C2: evaluation of the code at the failing input.  For Redundancy(2) with
copy bytes 0x01 and 0x00, the vote at bit position 0 ties 1 against 1; the
code resolves the tie to 0 and writes the resolved byte into every copy, so
the buffer becomes [0x00, 0x00] — the tied bit position is not left
untouched (copy 0 loses its set bit), while the reported error count does
include the minority side n/2 = 1 exactly as the claim states. -/
theorem c2_even_tie_zeroes_bits :
    correct_bits_redundant [1, 0] 2 0 = some ([0, 0], 1) := rfl

/-- C3: evaluation of the code at the claimed scenario.  With
P = [Nil, Nil, Encrypted] (the canonical slot layout for an encryption-only
request), apply stops at the Nil in slot 0 and never encrypts: the data
region still equals the plaintext (the claim says it differs), er_read_buf
decrypts with whatever bytes occupy the uninitialised nonce slot and hands
the caller the plaintext XORed with that keystream (here, with the all-one
keystream, bytes 0x40 instead of 0x41), and the re-encryption writes the
fixed NONCE into the meta region, so the backing buffer after the call
differs from its contents before it (the claim says it is identical). -/
theorem c3_encrypted_slot_never_applied :
    ((AllocBlock.new rsCodec0 ks1 16 psC3 false (List.replicate 32 0)).bind
        (fun b => (write_bytes b 0 ptC3).apply_policy rsCodec0 ks1)) = some blkC3 ∧
    blkC3.buffer.take 16 = ptC3 ∧
    (er_read_buf rsCodec0 ks1 blkC3 0 16).map (fun r => (r.1.buffer, r.2.1, r.2.2)) =
      some (ptC3 ++ NONCE, some (List.replicate 16 64), 0) :=
  ⟨rfl, rfl, rfl⟩

/-- C6: the redundancy scenario of the spec (and of the repository's own
redundancy_check test).  With P = [Redundancy(3), Nil, Nil] and copy bytes
0x0F, 0x0A, 0x00, the block reports corruption, correction reports exactly
4 repaired bit positions, and afterwards all three copies hold 0x0A. -/
theorem c6_redundancy_scenario :
    (AllocBlock.new rsCodec0 ks0 1 psC6 false [0, 0, 0]).map
        (fun b => write_bytes b 0 [15, 10, 0]) = some blkC6 ∧
    blkC6.is_corrupted rsCodec0 = some true ∧
    (blkC6.correct_buffer rsCodec0).map (fun r => (r.1.buffer, r.2)) = some ([10, 10, 10], 4) :=
  ⟨rfl, rfl, rfl⟩

/-- C5: Policy::correct_buffer for ReedSolomon(k) is atomic on decoder
failure — it returns 0 and leaves the buffer unchanged — and on success it
overwrites the buffer with the decoded codeword (data and parity) and
returns the codec-reported error count. -/
theorem c5_reed_solomon_failure_atomicity (codec : RSCodec) (k : Nat) (buffer : List Nat) :
    (codec.decode k buffer = none →
      Policy.correct_buffer codec (.ReedSolomon k) buffer = some (buffer, 0)) ∧
    (∀ cw e, codec.decode k buffer = some (cw, e) → k < buffer.length →
      cw.length = buffer.length →
      Policy.correct_buffer codec (.ReedSolomon k) buffer = some (cw, e)) := by
  constructor
  · intro h
    simp [Policy.correct_buffer, h]
  · intro cw e h hk hl
    simp [Policy.correct_buffer, h, Nat.not_le.mpr hk, hl]

/-- C5 witness: concrete four-byte buffer with a failing decoder (rsCodec0)
and with a succeeding decoder (rsCodec1, two reported errors). -/
theorem c5_reed_solomon_failure_atomicity_witness :
    Policy.correct_buffer rsCodec0 (.ReedSolomon 2) [9, 9, 9, 9] = some ([9, 9, 9, 9], 0) ∧
    Policy.correct_buffer rsCodec1 (.ReedSolomon 2) [9, 9, 9, 9] = some ([9, 9, 9, 9], 2) :=
  ⟨(c5_reed_solomon_failure_atomicity rsCodec0 2 [9, 9, 9, 9]).1 rfl,
   (c5_reed_solomon_failure_atomicity rsCodec1 2 [9, 9, 9, 9]).2 [9, 9, 9, 9] 2 rfl
     (by decide) rfl⟩

/-- C7: the buffer_size header field equals size_of(L, P) immediately after
new(L, P, zeroed) and after renew(block, L, P), and the size drop_ref
recomputes from the header fields (drop_size) coincides with it. -/
theorem c7_buffer_size_layout (codec : RSCodec) (ks : Keystream) :
    (∀ (L : Nat) (ps : PolicySet) (z : Bool) (init : List Nat) (b : AllocBlock),
      AllocBlock.new codec ks L ps z init = some b →
        b.buffer_size = size_of L ps ∧ b.drop_size = b.buffer_size) ∧
    (∀ (b0 : AllocBlock) (L : Nat) (ps : PolicySet) (b : AllocBlock),
      AllocBlock.renew codec ks b0 L ps = some b →
        b.buffer_size = size_of L ps ∧ b.drop_size = b.buffer_size) := by
  have hdrop : ∀ b : AllocBlock, b.drop_size = size_of b.length b.policies := fun _ => rfl
  constructor
  · intro L ps z init b h
    cases z with
    | false =>
        have h' : some ({ policies := ps, buffer_size := size_of L ps, length := L,
                          weak_exists := false,
                          buffer := init.take (size_of L ps) ++
                            List.replicate (size_of L ps - init.length) 0 } : AllocBlock)
            = some b := h
        cases Option.some.inj h'
        exact ⟨rfl, rfl⟩
    | true =>
        have h' : ({ policies := ps, buffer_size := size_of L ps, length := L,
                     weak_exists := false,
                     buffer := List.replicate (size_of L ps) 0 }
              : AllocBlock).apply_policy codec ks = some b := h
        obtain ⟨hps, hbs, hlen⟩ := apply_policy_fields codec ks _ b h'
        refine ⟨by rw [hbs], ?_⟩
        rw [hdrop, hlen, hps, hbs]
  · intro b0 L ps b h
    have h' : ({ policies := ps, buffer_size := size_of L ps, length := L, weak_exists := false,
                 buffer := b0.buffer.take (size_of L ps) ++
                   List.replicate (size_of L ps - b0.buffer.length) 0 }
          : AllocBlock).apply_policy codec ks = some b := h
    obtain ⟨hps, hbs, hlen⟩ := apply_policy_fields codec ks _ b h'
    refine ⟨by rw [hbs], ?_⟩
    rw [hdrop, hlen, hps, hbs]

/-- C7 witness: a concrete allocation of two bytes with no policies and a
renewal of it to five bytes. -/
theorem c7_buffer_size_layout_witness :
    (blkC7a.buffer_size = size_of 2 psNil3 ∧ blkC7a.drop_size = blkC7a.buffer_size) ∧
    (blkC7b.buffer_size = size_of 5 psNil3 ∧ blkC7b.drop_size = blkC7b.buffer_size) :=
  ⟨(c7_buffer_size_layout rsCodec0 ks0).1 2 psNil3 false [] blkC7a rfl,
   (c7_buffer_size_layout rsCodec0 ks0).2 blkC7a 5 psNil3 blkC7b rfl⟩

theorem parse_policies_slots (nodes : List ErPolicyListNode) :
    parse_policies nodes =
      ⟨spec_slot nodes .Redundancy, spec_slot nodes .ReedSolomon, spec_slot nodes .Encrypted⟩ := by
  induction nodes using List.reverseRecOn with
  | nil => rfl
  | append_singleton l nd ih =>
      obtain ⟨tag, data⟩ := nd
      have hl : parse_policies (l ++ [⟨tag, data⟩]) =
          assignSlot (parse_policies l) (nodeToPolicy ⟨tag, data⟩) := by
        simp [parse_policies, List.foldl_append]
      cases tag <;>
        simp [hl, ih, spec_slot, lastOfKind, nodeToPolicy, assignSlot, List.filter_append,
          List.getLast?_concat]

/-- C8: setup_policy_helper puts each supplied kind into its fixed slot
(slot 0 Redundancy, slot 1 ReedSolomon, slot 2 Encrypted), with unused
slots Nil, a later node of the same kind overwriting an earlier one and Nil
nodes ignored — independent of the order of the caller's list. -/
theorem c8_policy_slot_assignment (nodes : List ErPolicyListNode) (size : Nat)
    (hlen : nodes.length ≤ MAX_POLICIES) (hsz : size ≠ 0) :
    setup_policy_helper size nodes =
      some (some ⟨spec_slot nodes .Redundancy, spec_slot nodes .ReedSolomon,
        spec_slot nodes .Encrypted⟩) := by
  unfold setup_policy_helper
  rw [if_neg hsz, if_neg (Nat.not_lt.mpr hlen), parse_policies_slots]

/-- C8 witness: an Encrypted node followed by a Redundancy node with
parameter 5 lands as [Redundancy(5), Nil, Encrypted]. -/
theorem c8_policy_slot_assignment_witness :
    setup_policy_helper 1 [⟨.Encrypted, none⟩, ⟨.Redundancy, some 5⟩] =
      some (some ⟨.Redundancy 5, .Nil, .Encrypted⟩) :=
  c8_policy_slot_assignment [⟨.Encrypted, none⟩, ⟨.Redundancy, some 5⟩] 1 (by decide) (by decide)

theorem apply_policy_go_nil_slot (codec : RSCodec) (ks : Keystream) (ps : PolicySet)
    (index : Nat) (h : ps.get index = Policy.Nil) (fuel : Nat) (buffer : List Nat) :
    apply_policy_go codec ks ps (fuel + 1) index buffer = some buffer := by
  simp only [apply_policy_go]
  rw [h]

theorem apply_policy_go_red_nil_slot (codec : RSCodec) (ks : Keystream) (ps : PolicySet)
    (m d : Nat) (hm : m ≠ 0) (hd : d ≠ 0)
    (h0 : ps.get 0 = Policy.Redundancy m) (h1 : ps.get 1 = Policy.Nil)
    (buffer : List Nat) (hlen : buffer.length = d * m) :
    apply_policy_go codec ks ps 3 0 buffer =
      some (List.flatten (List.replicate m (buffer.take d))) := by
  have hmod : buffer.length % m = 0 := by rw [hlen]; exact Nat.mul_mod_left d m
  have hdiv : buffer.length / m = d := by
    rw [hlen]; exact Nat.mul_div_cancel d (Nat.pos_of_ne_zero hm)
  have hsplit : (Policy.Redundancy m).split_buffer buffer = some (buffer.take d, buffer.drop d) := by
    simp [Policy.split_buffer, Policy.data_len, hm, hmod, hdiv]
  have hinner : apply_policy_go codec ks ps 2 1 (buffer.take d) = some (buffer.take d) :=
    apply_policy_go_nil_slot codec ks ps 1 h1 1 (buffer.take d)
  have happ : (Policy.Redundancy m).apply_policy codec ks (buffer.take d ++ buffer.drop d) =
      some (List.flatten (List.replicate m (buffer.take d))) := by
    rw [List.take_append_drop]
    simp [Policy.apply_policy, hm, hmod, hdiv, hd]
  show (match ps.get 0 with
        | Policy.Nil => some buffer
        | p =>
            (p.split_buffer buffer).bind (fun s =>
              (apply_policy_go codec ks ps 2 1 s.1).bind (fun dd =>
                p.apply_policy codec ks (dd ++ s.2)))) =
      some (List.flatten (List.replicate m (buffer.take d)))
  rw [h0]
  show ((Policy.Redundancy m).split_buffer buffer).bind (fun s =>
      (apply_policy_go codec ks ps 2 1 s.1).bind (fun dd =>
        (Policy.Redundancy m).apply_policy codec ks (dd ++ s.2))) =
    some (List.flatten (List.replicate m (buffer.take d)))
  rw [hsplit]
  show (apply_policy_go codec ks ps 2 1 (buffer.take d)).bind (fun dd =>
      (Policy.Redundancy m).apply_policy codec ks (dd ++ buffer.drop d)) =
    some (List.flatten (List.replicate m (buffer.take d)))
  rw [hinner]
  show (Policy.Redundancy m).apply_policy codec ks (buffer.take d ++ buffer.drop d) =
    some (List.flatten (List.replicate m (buffer.take d)))
  exact happ

/-- C10 counterexample: with a policy list holding one Redundancy(3) node,
er_calloc(0, 1, P) does not return a pointer at all — the zeroed allocation
has a zero-length data region and apply_policy panics in the redundancy
chunking (chunks_exact_mut with chunk size 0) — refuting the claim that
er_calloc(0, n, P) returns a non-null pointer for every policy set. -/
theorem c10_redundancy_zero_length_panics :
    er_calloc rsCodec0 ks0 0 1 [⟨.Redundancy, some 3⟩] = none := rfl

/-- C10 (amended): er_calloc's zero-size check applies only to the
element-size argument — er_calloc(nmemb, 0, P) returns null for every nmemb
and every node list.  er_calloc(0, n, P) with n > 0 allocates the zero
product rather than rejecting it; it returns a non-null pointer to a block
of user length 0 whenever the parsed set leaves slot 0 Nil (no Redundancy
node supplied), and also when the parsed set is [Redundancy(m), Nil,
Encrypted] with m nonzero (the nonce expansion gives the redundancy layer a
16-byte data region to copy); when the parsed set is [Redundancy(m), Nil,
Nil] — only Redundancy supplied — the zeroed apply panics on the
zero-length data region and er_calloc does not return. -/
theorem c10_zero_size_checks (codec : RSCodec) (ks : Keystream) :
    (∀ (nodes : List ErPolicyListNode) (nmemb : Nat),
      er_calloc codec ks nmemb 0 nodes = some none) ∧
    (∀ (nodes : List ErPolicyListNode) (n : Nat), 0 < n → nodes.length ≤ MAX_POLICIES →
      (∀ nd ∈ nodes, nd.policy ≠ ErPolicyRaw.Redundancy) →
      ∃ b : AllocBlock, er_calloc codec ks 0 n nodes = some (some b) ∧ b.length = 0) ∧
    (∀ (nodes : List ErPolicyListNode) (n m : Nat), 0 < n → nodes.length ≤ MAX_POLICIES →
      m ≠ 0 →
      (parse_policies nodes).p0 = Policy.Redundancy m →
      (parse_policies nodes).p1 = Policy.Nil →
      (parse_policies nodes).p2 = Policy.Encrypted →
      ∃ b : AllocBlock, er_calloc codec ks 0 n nodes = some (some b) ∧ b.length = 0) ∧
    (∀ (nodes : List ErPolicyListNode) (n m : Nat), 0 < n → nodes.length ≤ MAX_POLICIES →
      (parse_policies nodes).p0 = Policy.Redundancy m →
      (parse_policies nodes).p1 = Policy.Nil →
      (parse_policies nodes).p2 = Policy.Nil →
      er_calloc codec ks 0 n nodes = none) := by
  have hlim : ¬ USIZE_LIMIT ≤ 0 := Nat.not_le.mpr (Nat.two_pow_pos 64)
  refine ⟨?_, ?_, ?_, ?_⟩
  · intro nodes nmemb
    unfold er_calloc
    rw [Nat.mul_zero, if_neg hlim]
    unfold setup_policy_helper
    rw [if_pos rfl]
  · intro nodes n hn hlen hnored
    have hp0 : (parse_policies nodes).p0 = Policy.Nil := by
      rw [parse_policies_slots]
      show spec_slot nodes .Redundancy = Policy.Nil
      unfold spec_slot lastOfKind
      rw [List.filter_eq_nil_iff.mpr (fun nd hmem => by simp [hnored nd hmem])]
      rfl
    refine ⟨zeroBlock (parse_policies nodes), ?_, rfl⟩
    have h0 : (zeroBlock (parse_policies nodes)).policies.get 0 = Policy.Nil := hp0
    have hgo : apply_policy_go codec ks (zeroBlock (parse_policies nodes)).policies
        MAX_POLICIES 0 (zeroBlock (parse_policies nodes)).buffer =
          some (zeroBlock (parse_policies nodes)).buffer :=
      apply_policy_go_nil_slot codec ks _ 0 h0 2 _
    have hnew : AllocBlock.new codec ks 0 (parse_policies nodes) true [] =
        some (zeroBlock (parse_policies nodes)) := by
      show (apply_policy_go codec ks (zeroBlock (parse_policies nodes)).policies
          MAX_POLICIES 0 (zeroBlock (parse_policies nodes)).buffer).map
            (fun buf => { zeroBlock (parse_policies nodes) with buffer := buf }) =
          some (zeroBlock (parse_policies nodes))
      rw [hgo]
      rfl
    have hsetup : setup_policy_helper n nodes = some (some (parse_policies nodes)) := by
      unfold setup_policy_helper
      rw [if_neg (by omega), if_neg (Nat.not_lt.mpr hlen)]
    unfold er_calloc
    rw [Nat.zero_mul, if_neg hlim, hsetup]
    show (match AllocBlock.new codec ks 0 (parse_policies nodes) true [] with
          | none => none
          | some b => some (some b)) = some (some (zeroBlock (parse_policies nodes)))
    rw [hnew]
  · intro nodes n m hn hlen hm h0 h1 h2
    have hsetup : setup_policy_helper n nodes = some (some (parse_policies nodes)) := by
      unfold setup_policy_helper
      rw [if_neg (by omega), if_neg (Nat.not_lt.mpr hlen)]
    have h0' : (parse_policies nodes).get 0 = Policy.Redundancy m := h0
    have h1' : (parse_policies nodes).get 1 = Policy.Nil := h1
    have hbs : size_of 0 (parse_policies nodes) = 16 * m := by
      unfold size_of
      rw [h0, h1, h2]
      simp [stepSize, NONCE_LEN]
    have hblen : (zeroBlock (parse_policies nodes)).buffer.length = 16 * m := by
      show (List.replicate (size_of 0 (parse_policies nodes)) 0).length = 16 * m
      rw [List.length_replicate, hbs]
    have hgo : apply_policy_go codec ks (parse_policies nodes) 3 0
        (zeroBlock (parse_policies nodes)).buffer =
        some (List.flatten (List.replicate m
          ((zeroBlock (parse_policies nodes)).buffer.take 16))) :=
      apply_policy_go_red_nil_slot codec ks (parse_policies nodes) m 16 hm (by omega)
        h0' h1' (zeroBlock (parse_policies nodes)).buffer hblen
    have hgo2 : apply_policy_go codec ks (zeroBlock (parse_policies nodes)).policies
        MAX_POLICIES 0 (zeroBlock (parse_policies nodes)).buffer =
        some (List.flatten (List.replicate m
          ((zeroBlock (parse_policies nodes)).buffer.take 16))) := hgo
    have hnewdef : AllocBlock.new codec ks 0 (parse_policies nodes) true [] =
        (apply_policy_go codec ks (zeroBlock (parse_policies nodes)).policies MAX_POLICIES 0
          (zeroBlock (parse_policies nodes)).buffer).map
            (fun buf => { zeroBlock (parse_policies nodes) with buffer := buf }) := rfl
    have hex : ∃ b : AllocBlock, AllocBlock.new codec ks 0 (parse_policies nodes) true [] =
        some b := by
      rw [hnewdef, hgo2, Option.map_some']
      exact ⟨_, rfl⟩
    obtain ⟨b, hb⟩ := hex
    have hblen0 : b.length = 0 := by
      have hb' : (zeroBlock (parse_policies nodes)).apply_policy codec ks = some b := hb
      exact (apply_policy_fields codec ks _ b hb').2.2
    refine ⟨b, ?_, hblen0⟩
    unfold er_calloc
    rw [Nat.zero_mul, if_neg hlim, hsetup]
    show (match AllocBlock.new codec ks 0 (parse_policies nodes) true [] with
          | none => none
          | some bb => some (some bb)) = some (some b)
    rw [hb]
  · intro nodes n m hn hlen h0 h1 h2
    have hsetup : setup_policy_helper n nodes = some (some (parse_policies nodes)) := by
      unfold setup_policy_helper
      rw [if_neg (by omega), if_neg (Nat.not_lt.mpr hlen)]
    have h0' : (parse_policies nodes).get 0 = Policy.Redundancy m := h0
    have h1' : (parse_policies nodes).get 1 = Policy.Nil := h1
    have hbs : size_of 0 (parse_policies nodes) = 0 := by
      unfold size_of
      rw [h0, h1, h2]
      simp [stepSize]
    have hblen : (zeroBlock (parse_policies nodes)).buffer = [] := by
      show List.replicate (size_of 0 (parse_policies nodes)) 0 = []
      rw [hbs]
      rfl
    have hgo : apply_policy_go codec ks (parse_policies nodes) 3 0 [] = none := by
      by_cases hm : m = 0
      · subst hm
        show (match (parse_policies nodes).get 0 with
              | Policy.Nil => some ([] : List Nat)
              | p =>
                  (p.split_buffer []).bind (fun s =>
                    (apply_policy_go codec ks (parse_policies nodes) 2 1 s.1).bind (fun dd =>
                      p.apply_policy codec ks (dd ++ s.2)))) = none
        rw [h0']
        rfl
      · have hsplit : (Policy.Redundancy m).split_buffer ([] : List Nat) = some ([], []) := by
          simp [Policy.split_buffer, Policy.data_len, hm]
        have hinner : apply_policy_go codec ks (parse_policies nodes) 2 1 ([] : List Nat) =
            some [] :=
          apply_policy_go_nil_slot codec ks (parse_policies nodes) 1 h1' 1 []
        have happ : (Policy.Redundancy m).apply_policy codec ks (([] : List Nat) ++ []) =
            none := by
          simp [Policy.apply_policy, hm]
        show (match (parse_policies nodes).get 0 with
              | Policy.Nil => some ([] : List Nat)
              | p =>
                  (p.split_buffer []).bind (fun s =>
                    (apply_policy_go codec ks (parse_policies nodes) 2 1 s.1).bind (fun dd =>
                      p.apply_policy codec ks (dd ++ s.2)))) = none
        rw [h0']
        show ((Policy.Redundancy m).split_buffer ([] : List Nat)).bind (fun s =>
            (apply_policy_go codec ks (parse_policies nodes) 2 1 s.1).bind (fun dd =>
              (Policy.Redundancy m).apply_policy codec ks (dd ++ s.2))) = none
        rw [hsplit]
        show (apply_policy_go codec ks (parse_policies nodes) 2 1 ([] : List Nat)).bind
            (fun dd => (Policy.Redundancy m).apply_policy codec ks (dd ++ ([] : List Nat))) =
          none
        rw [hinner]
        show (Policy.Redundancy m).apply_policy codec ks (([] : List Nat) ++ []) = none
        exact happ
    have hgo2 : apply_policy_go codec ks (zeroBlock (parse_policies nodes)).policies
        MAX_POLICIES 0 (zeroBlock (parse_policies nodes)).buffer = none := by
      rw [hblen]
      exact hgo
    have hnewdef : AllocBlock.new codec ks 0 (parse_policies nodes) true [] =
        (apply_policy_go codec ks (zeroBlock (parse_policies nodes)).policies MAX_POLICIES 0
          (zeroBlock (parse_policies nodes)).buffer).map
            (fun buf => { zeroBlock (parse_policies nodes) with buffer := buf }) := rfl
    have hnew : AllocBlock.new codec ks 0 (parse_policies nodes) true [] = none := by
      rw [hnewdef, hgo2]
      rfl
    unfold er_calloc
    rw [Nat.zero_mul, if_neg hlim, hsetup]
    show (match AllocBlock.new codec ks 0 (parse_policies nodes) true [] with
          | none => none
          | some b => some (some b)) = none
    rw [hnew]

theorem getD_set_eq_ite (l : List Nat) (i a q : Nat) :
    (l.set i a).getD q 0 = if i = q ∧ i < l.length then a else l.getD q 0 := by
  by_cases hiq : i = q
  · subst hiq
    by_cases hil : i < l.length
    · rw [if_pos ⟨rfl, hil⟩]
      simp [List.getD_eq_getElem?_getD, List.getElem?_set_self hil]
    · rw [if_neg (fun h => hil h.2), List.set_eq_of_length_le (Nat.le_of_not_lt hil)]
  · rw [if_neg (fun h => hiq h.1)]
    simp [List.getD_eq_getElem?_getD, List.getElem?_set_ne hiq]

theorem foldl_set_length (pos : Nat → Nat) (c : Nat) :
    ∀ (l : List Nat) (buf : List Nat),
      (l.foldl (fun b i => b.set (pos i) c) buf).length = buf.length := by
  intro l
  induction l with
  | nil => intro buf; rfl
  | cons a t ih => intro buf; rw [List.foldl_cons, ih, List.length_set]

theorem foldl_set_getD_not_mem (pos : Nat → Nat) (c : Nat) :
    ∀ (l : List Nat) (buf : List Nat) (q : Nat), (∀ i ∈ l, pos i ≠ q) →
      (l.foldl (fun b i => b.set (pos i) c) buf).getD q 0 = buf.getD q 0 := by
  intro l
  induction l with
  | nil => intro buf q _; rfl
  | cons a t ih =>
      intro buf q h
      rw [List.foldl_cons, ih _ _ (fun i hi => h i (List.mem_cons_of_mem a hi)),
        getD_set_eq_ite, if_neg (fun hh => h a (List.mem_cons_self a t) hh.1)]

theorem foldl_set_getD_mem (pos : Nat → Nat) (c : Nat) :
    ∀ (l : List Nat) (buf : List Nat) (q : Nat), (∃ i ∈ l, pos i = q) → q < buf.length →
      (l.foldl (fun b i => b.set (pos i) c) buf).getD q 0 = c := by
  intro l
  induction l with
  | nil => intro buf q h _; exact absurd h (by simp)
  | cons a t ih =>
      intro buf q h hq
      rw [List.foldl_cons]
      by_cases ht : ∃ i ∈ t, pos i = q
      · exact ih _ _ ht (by rw [List.length_set]; exact hq)
      · have ha : pos a = q := by
          obtain ⟨i, hi, hpi⟩ := h
          rcases List.mem_cons.mp hi with rfl | hit
          · exact hpi
          · exact absurd ⟨i, hit, hpi⟩ ht
        rw [foldl_set_getD_not_mem pos c t _ q (fun i hi hpi => ht ⟨i, hi, hpi⟩),
          getD_set_eq_ite, if_pos ⟨ha, by rw [ha]; exact hq⟩]

theorem writeCopies_length (buffer : List Nat) (n L index c : Nat) :
    (writeCopies buffer n L index c).length = buffer.length :=
  foldl_set_length _ c (List.range n) buffer

theorem writeCopies_getD_at (buffer : List Nat) (n L index c : Nat) (copy : Nat)
    (hc : copy < n) (hin : copy * L + index < buffer.length) :
    (writeCopies buffer n L index c).getD (copy * L + index) 0 = c :=
  foldl_set_getD_mem _ c (List.range n) buffer _ ⟨copy, List.mem_range.mpr hc, rfl⟩ hin

theorem writeCopies_getD_other (buffer : List Nat) (n L index c q : Nat)
    (hidx : index < L) (hq : q % L ≠ index) :
    (writeCopies buffer n L index c).getD q 0 = buffer.getD q 0 := by
  apply foldl_set_getD_not_mem
  intro i _ hpi
  apply hq
  rw [← hpi]
  have e : i * L + index = L * i + index := by ring
  rw [e, Nat.mul_add_mod, Nat.mod_eq_of_lt hidx]

theorem pos_lt_total (n L c j : Nat) (hc : c < n) (hj : j < L) : c * L + j < n * L := by
  calc c * L + j < c * L + L := by omega
    _ = (c + 1) * L := by ring
    _ ≤ n * L := Nat.mul_le_mul_right L (by omega)

theorem voteStep_fst (buffer : List Nat) (n L index : Nat) (acc : Nat × Nat) (bit : Nat) :
    (voteStep buffer n L index acc bit).1 =
      if (voteBits buffer n L index bit).count 0 < (voteBits buffer n L index bit).count 1
      then acc.1 ||| (1 <<< bit) else acc.1 := by
  unfold voteStep
  rw [apply_ite Prod.fst]

theorem voteByte_fst (buffer : List Nat) (n L index : Nat) :
    (voteByte buffer n L index).1 =
      (List.range 8).foldl
        (fun a bit =>
          if (voteBits buffer n L index bit).count 0 < (voteBits buffer n L index bit).count 1
          then a ||| (1 <<< bit) else a) 0 := by
  have key : ∀ (l : List Nat) (acc : Nat × Nat),
      (l.foldl (voteStep buffer n L index) acc).1 =
        l.foldl (fun a bit =>
          if (voteBits buffer n L index bit).count 0 < (voteBits buffer n L index bit).count 1
          then a ||| (1 <<< bit) else a) acc.1 := by
    intro l
    induction l with
    | nil => intro acc; rfl
    | cons b t ih =>
        intro acc
        rw [List.foldl_cons, List.foldl_cons, ih, voteStep_fst]
  exact key (List.range 8) (0, 0)

theorem foldl_or_testBit (P : Nat → Prop) [DecidablePred P] :
    ∀ (l : List Nat) (a j : Nat),
      (l.foldl (fun x bit => if P bit then x ||| (1 <<< bit) else x) a).testBit j =
        (a.testBit j || (decide (P j) && decide (j ∈ l))) := by
  intro l
  induction l with
  | nil => intro a j; simp
  | cons b t ih =>
      intro a j
      rw [List.foldl_cons, ih]
      by_cases hbj : b = j
      · subst hbj
        by_cases hP : P b
        · simp [hP, Nat.testBit_lor, Nat.one_shiftLeft, Nat.testBit_two_pow]
        · simp [hP]
      · have hjb : j ≠ b := fun h => hbj h.symm
        by_cases hP : P b
        · simp [hP, Nat.testBit_lor, Nat.one_shiftLeft, Nat.testBit_two_pow, hbj,
            List.mem_cons, hjb]
        · simp [hP, List.mem_cons, hjb]

theorem count_zero_add_count_one (l : List Nat) (h : ∀ x ∈ l, x < 2) :
    l.count 0 + l.count 1 = l.length := by
  induction l with
  | nil => rfl
  | cons a t ih =>
      have ha := h a (List.mem_cons_self a t)
      have ht := ih (fun x hx => h x (List.mem_cons_of_mem a hx))
      rcases (by omega : a = 0 ∨ a = 1) with rfl | rfl <;>
        simp [List.count_cons] <;> omega

theorem countP_not_add (p : Nat → Bool) (l : List Nat) :
    l.countP (fun a => !(p a)) + l.countP p = l.length := by
  induction l with
  | nil => rfl
  | cons a t ih =>
      simp only [List.countP_cons, List.length_cons]
      cases hpa : p a <;> simp [hpa] <;> omega

theorem majority_eq_testBit (buffer : List Nat) (n L index orig bit : Nat)
    (hodd : n % 2 = 1)
    (hbad : (List.range n).countP
        (fun i => decide (buffer.getD (i * L + index) 0 ≠ orig)) ≤ (n - 1) / 2) :
    decide ((voteBits buffer n L index bit).count 0 <
        (voteBits buffer n L index bit).count 1) = orig.testBit bit := by
  have hlenb : (voteBits buffer n L index bit).length = n := by
    simp [voteBits]
  have hmem : ∀ x ∈ voteBits buffer n L index bit, x < 2 := by
    intro x hx
    simp only [voteBits, List.mem_map] at hx
    obtain ⟨i, _, rfl⟩ := hx
    rw [Nat.and_one_is_mod]
    exact Nat.mod_lt _ (by decide)
  have hsum := count_zero_add_count_one _ hmem
  rw [hlenb] at hsum
  have hob2 : (orig >>> bit) &&& 1 < 2 := by
    rw [Nat.and_one_is_mod]; exact Nat.mod_lt _ (by decide)
  have htb : orig.testBit bit = decide ((orig >>> bit) &&& 1 = 1) := by
    rw [Nat.testBit_to_div_mod, Nat.shiftRight_eq_div_pow, Nat.and_one_is_mod]
  have hcount : (voteBits buffer n L index bit).count ((orig >>> bit) &&& 1) =
      (List.range n).countP
        (fun i => ((buffer.getD (i * L + index) 0 >>> bit) &&& 1) == ((orig >>> bit) &&& 1)) := by
    rw [voteBits, List.count_eq_countP, List.countP_map]
    apply List.countP_congr
    intro i _
    constructor
    · intro h; exact h
    · intro h; exact h
  have hmono : (List.range n).countP (fun i => decide (buffer.getD (i * L + index) 0 = orig)) ≤
      (voteBits buffer n L index bit).count ((orig >>> bit) &&& 1) := by
    rw [hcount]
    apply List.countP_mono_left
    intro i _ hp
    have he : buffer.getD (i * L + index) 0 = orig := of_decide_eq_true hp
    rw [he]
    exact beq_self_eq_true _
  have hsplit : (List.range n).countP (fun i => decide (buffer.getD (i * L + index) 0 = orig)) +
      (List.range n).countP (fun i => decide (buffer.getD (i * L + index) 0 ≠ orig)) = n := by
    have h1 := countP_not_add (fun i => decide (buffer.getD (i * L + index) 0 ≠ orig)) (List.range n)
    rw [List.length_range] at h1
    have h2 : (List.range n).countP
        (fun i => !(decide (buffer.getD (i * L + index) 0 ≠ orig))) =
        (List.range n).countP (fun i => decide (buffer.getD (i * L + index) 0 = orig)) := by
      apply List.countP_congr
      intro i _
      simp
    rw [h2] at h1
    exact h1
  rcases (by omega : (orig >>> bit) &&& 1 = 0 ∨ (orig >>> bit) &&& 1 = 1) with hob | hob
  · rw [hob] at hmono htb
    rw [htb]
    have hlt : ¬ ((voteBits buffer n L index bit).count 0 <
        (voteBits buffer n L index bit).count 1) := by omega
    simp [hlt]
  · rw [hob] at hmono htb
    rw [htb]
    have hlt : (voteBits buffer n L index bit).count 0 <
        (voteBits buffer n L index bit).count 1 := by omega
    simp [hlt]

theorem voteByte_corrected_eq (buffer : List Nat) (n L index orig : Nat)
    (hodd : n % 2 = 1) (horig : orig < 256)
    (hbad : (List.range n).countP
        (fun i => decide (buffer.getD (i * L + index) 0 ≠ orig)) ≤ (n - 1) / 2) :
    (voteByte buffer n L index).1 = orig := by
  rw [voteByte_fst]
  apply Nat.eq_of_testBit_eq
  intro j
  rw [foldl_or_testBit (fun bit => (voteBits buffer n L index bit).count 0 <
      (voteBits buffer n L index bit).count 1) (List.range 8) 0 j]
  rw [Nat.zero_testBit, Bool.false_or]
  by_cases hj : j < 8
  · rw [majority_eq_testBit buffer n L index orig j hodd hbad]
    simp [List.mem_range, hj]
  · have h256 : (256 : Nat) ≤ 2 ^ j := by
      calc (256 : Nat) = 2 ^ 8 := by norm_num
        _ ≤ 2 ^ j := Nat.pow_le_pow_right (by omega) (by omega)
    have h1 : orig.testBit j = false :=
      Nat.testBit_eq_false_of_lt (Nat.lt_of_lt_of_le horig h256)
    simp [List.mem_range, hj, h1]

theorem correct_bits_redundant_eq (buffer : List Nat) (n L index : Nat)
    (hn : n ≠ 0) (hlen : buffer.length = n * L) (hidx : index < L) :
    correct_bits_redundant buffer n index =
      some (writeCopies buffer n L index (voteByte buffer n L index).1,
        (voteByte buffer n L index).2) := by
  have hmod : buffer.length % n = 0 := by rw [hlen]; exact Nat.mul_mod_right n L
  have hdiv : buffer.length / n = L := by
    rw [hlen]; exact Nat.mul_div_cancel_left L (Nat.pos_of_ne_zero hn)
  simp [correct_bits_redundant, hmod, hdiv, hn, Nat.not_le.mpr hidx]

theorem red_correct_buffer_eq (codec : RSCodec) (n L : Nat) (buffer : List Nat)
    (hn : n ≠ 0) (hlen : buffer.length = n * L) :
    Policy.correct_buffer codec (.Redundancy n) buffer =
      (List.range L).foldlM (redCorrectStep n) (buffer, 0) := by
  have hmod : buffer.length % n = 0 := by rw [hlen]; exact Nat.mul_mod_right n L
  have hdiv : buffer.length / n = L := by
    rw [hlen]; exact Nat.mul_div_cancel_left L (Nat.pos_of_ne_zero hn)
  have hLle : L ≤ buffer.length := by
    rw [hlen]
    calc L = 1 * L := (Nat.one_mul L).symm
      _ ≤ n * L := Nat.mul_le_mul_right L (by omega)
  simp [Policy.correct_buffer, Policy.split_buffer, Policy.data_len, hn, hmod, hdiv,
    List.length_take, Nat.min_eq_left hLle]

theorem redCorrect_foldlM_uniform (n L : Nat) (hn : n ≠ 0) :
    ∀ (js : List Nat), (∀ j ∈ js, j < L) →
      ∀ (buffer : List Nat) (e0 : Nat), buffer.length = n * L →
        ∃ r : List Nat × Nat,
          js.foldlM (redCorrectStep n) (buffer, e0) = some r ∧
          r.1.length = n * L ∧
          (∀ q, q % L ∉ js → r.1.getD q 0 = buffer.getD q 0) ∧
          (∀ j ∈ js, ∀ c1, c1 < n → ∀ c2, c2 < n →
            r.1.getD (c1 * L + j) 0 = r.1.getD (c2 * L + j) 0) := by
  intro js
  induction js with
  | nil =>
      intro _ buffer e0 hlen
      exact ⟨(buffer, e0), rfl, hlen, fun q _ => rfl,
        fun j hj => absurd hj (List.not_mem_nil j)⟩
  | cons j t ih =>
      intro hjs buffer e0 hlen
      have hj : j < L := hjs j (List.mem_cons_self j t)
      have hcbr := correct_bits_redundant_eq buffer n L j hn hlen hj
      have hwlen : (writeCopies buffer n L j (voteByte buffer n L j).1).length = n * L := by
        rw [writeCopies_length, hlen]
      obtain ⟨r, hfold, hrlen, hframe, hhom⟩ :=
        ih (fun x hx => hjs x (List.mem_cons_of_mem j hx))
          (writeCopies buffer n L j (voteByte buffer n L j).1)
          (e0 + (voteByte buffer n L j).2) hwlen
      have hstep : redCorrectStep n (buffer, e0) j =
          some (writeCopies buffer n L j (voteByte buffer n L j).1,
            e0 + (voteByte buffer n L j).2) := by
        unfold redCorrectStep
        rw [hcbr]
        rfl
      refine ⟨r, ?_, hrlen, ?_, ?_⟩
      · rw [List.foldlM_cons, hstep]
        exact hfold
      · intro q hq
        have hqt : q % L ∉ t := fun h => hq (List.mem_cons_of_mem j h)
        have hqj : q % L ≠ j := fun h => hq (h ▸ List.mem_cons_self j t)
        rw [hframe q hqt, writeCopies_getD_other buffer n L j _ q hj hqj]
      · intro j' hj' c1 hc1 c2 hc2
        rcases List.mem_cons.mp hj' with rfl | hj't
        · by_cases hjt : j' ∈ t
          · exact hhom j' hjt c1 hc1 c2 hc2
          · have hres : ∀ c, c < n →
                r.1.getD (c * L + j') 0 = (voteByte buffer n L j').1 := by
              intro c hc
              have hmodq : (c * L + j') % L = j' := by
                have e : c * L + j' = L * c + j' := by ring
                rw [e, Nat.mul_add_mod, Nat.mod_eq_of_lt hj]
              have h1 : r.1.getD (c * L + j') 0 =
                  (writeCopies buffer n L j' (voteByte buffer n L j').1).getD (c * L + j') 0 :=
                hframe _ (by rw [hmodq]; exact hjt)
              rw [h1, writeCopies_getD_at buffer n L j' _ c hc]
              rw [hlen]
              exact pos_lt_total n L c j' hc hj
            rw [hres c1 hc1, hres c2 hc2]
        · exact hhom j' hj't c1 hc1 c2 hc2

theorem redCorrect_foldlM_restore (n L index orig : Nat) (hodd : n % 2 = 1)
    (hidx : index < L) (horig : orig < 256) :
    ∀ (js : List Nat), (∀ j ∈ js, j < L) →
      ∀ (buffer : List Nat) (e0 : Nat), buffer.length = n * L →
        (List.range n).countP
            (fun i => decide (buffer.getD (i * L + index) 0 ≠ orig)) ≤ (n - 1) / 2 →
        ∃ r : List Nat × Nat,
          js.foldlM (redCorrectStep n) (buffer, e0) = some r ∧
          r.1.length = n * L ∧
          (List.range n).countP
            (fun i => decide (r.1.getD (i * L + index) 0 ≠ orig)) ≤ (n - 1) / 2 ∧
          (((∀ c, c < n → buffer.getD (c * L + index) 0 = orig) ∨ index ∈ js) →
            ∀ c, c < n → r.1.getD (c * L + index) 0 = orig) := by
  have hn : n ≠ 0 := by omega
  intro js
  induction js with
  | nil =>
      intro _ buffer e0 hlen hbad
      refine ⟨(buffer, e0), rfl, hlen, hbad, ?_⟩
      intro h c hc
      rcases h with h | h
      · exact h c hc
      · exact absurd h (List.not_mem_nil index)
  | cons j t ih =>
      intro hjs buffer e0 hlen hbad
      have hj : j < L := hjs j (List.mem_cons_self j t)
      have hcbr := correct_bits_redundant_eq buffer n L j hn hlen hj
      have hwlen : (writeCopies buffer n L j (voteByte buffer n L j).1).length = n * L := by
        rw [writeCopies_length, hlen]
      have hstep : redCorrectStep n (buffer, e0) j =
          some (writeCopies buffer n L j (voteByte buffer n L j).1,
            e0 + (voteByte buffer n L j).2) := by
        unfold redCorrectStep
        rw [hcbr]
        rfl
      by_cases hji : j = index
      · subst hji
        have hv : (voteByte buffer n L j).1 = orig :=
          voteByte_corrected_eq buffer n L j orig hodd horig hbad
        have hres : ∀ c, c < n →
            (writeCopies buffer n L j (voteByte buffer n L j).1).getD (c * L + j) 0 = orig := by
          intro c hc
          rw [writeCopies_getD_at buffer n L j _ c hc, hv]
          rw [hlen]
          exact pos_lt_total n L c j hc hj
        have hbad' : (List.range n).countP
            (fun i => decide ((writeCopies buffer n L j (voteByte buffer n L j).1).getD
              (i * L + j) 0 ≠ orig)) ≤ (n - 1) / 2 := by
          have hz : (List.range n).countP
              (fun i => decide ((writeCopies buffer n L j (voteByte buffer n L j).1).getD
                (i * L + j) 0 ≠ orig)) = 0 := by
            rw [List.countP_eq_zero]
            intro i hi
            rw [hres i (List.mem_range.mp hi)]
            simp
          rw [hz]
          exact Nat.zero_le _
        obtain ⟨r, hfold, hrlen, hcnt, hrest⟩ :=
          ih (fun x hx => hjs x (List.mem_cons_of_mem j hx))
            (writeCopies buffer n L j (voteByte buffer n L j).1)
            (e0 + (voteByte buffer n L j).2) hwlen hbad'
        refine ⟨r, ?_, hrlen, hcnt, ?_⟩
        · rw [List.foldlM_cons, hstep]
          exact hfold
        · intro _ c hc
          exact hrest (Or.inl hres) c hc
      · have hkeep : ∀ c, c < n →
            (writeCopies buffer n L j (voteByte buffer n L j).1).getD (c * L + index) 0 =
              buffer.getD (c * L + index) 0 := by
          intro c hc
          apply writeCopies_getD_other buffer n L j _ _ hj
          have e : c * L + index = L * c + index := by ring
          rw [e, Nat.mul_add_mod, Nat.mod_eq_of_lt hidx]
          exact fun h => hji h.symm
        have hcongr : (List.range n).countP
            (fun i => decide ((writeCopies buffer n L j (voteByte buffer n L j).1).getD
              (i * L + index) 0 ≠ orig)) =
            (List.range n).countP
              (fun i => decide (buffer.getD (i * L + index) 0 ≠ orig)) := by
          apply List.countP_congr
          intro i hi
          rw [hkeep i (List.mem_range.mp hi)]
        have hbad' : (List.range n).countP
            (fun i => decide ((writeCopies buffer n L j (voteByte buffer n L j).1).getD
              (i * L + index) 0 ≠ orig)) ≤ (n - 1) / 2 := by
          rw [hcongr]
          exact hbad
        obtain ⟨r, hfold, hrlen, hcnt, hrest⟩ :=
          ih (fun x hx => hjs x (List.mem_cons_of_mem j hx))
            (writeCopies buffer n L j (voteByte buffer n L j).1)
            (e0 + (voteByte buffer n L j).2) hwlen hbad'
        refine ⟨r, ?_, hrlen, hcnt, ?_⟩
        · rw [List.foldlM_cons, hstep]
          exact hfold
        · intro h c hc
          apply hrest ?_ c hc
          rcases h with h | h
          · left
            intro c' hc'
            rw [hkeep c' hc']
            exact h c' hc'
          · rcases List.mem_cons.mp h with h' | h'
            · exact absurd h'.symm hji
            · exact Or.inr h'

/-- C4: for every odd n and every byte position, if at most (n-1)/2 of the n
redundant copies of that byte differ from the original byte (the remaining
copies holding it), Redundancy(n)'s correct_buffer succeeds and restores the
original byte in all n copies. -/
theorem c4_redundancy_correction_bound (codec : RSCodec) (n L index orig : Nat)
    (buffer : List Nat) (hodd : n % 2 = 1) (hlen : buffer.length = n * L)
    (hidx : index < L) (horig : orig < 256)
    (hbad : (List.range n).countP
        (fun i => decide (buffer.getD (i * L + index) 0 ≠ orig)) ≤ (n - 1) / 2) :
    ∃ r : List Nat × Nat,
      Policy.correct_buffer codec (.Redundancy n) buffer = some r ∧
      ∀ c, c < n → r.1.getD (c * L + index) 0 = orig := by
  have hn : n ≠ 0 := by omega
  obtain ⟨r, hfold, _, _, hrest⟩ :=
    redCorrect_foldlM_restore n L index orig hodd hidx horig (List.range L)
      (fun j hj => List.mem_range.mp hj) buffer 0 hlen hbad
  exact ⟨r, by rw [red_correct_buffer_eq codec n L buffer hn hlen]; exact hfold,
    hrest (Or.inr (List.mem_range.mpr hidx))⟩

/-- C4 witness: Redundancy(3) over one byte with the middle copy corrupted
(copies 5, 7, 5); correction restores 5 in all three copies. -/
theorem c4_redundancy_correction_bound_witness :
    ∃ r : List Nat × Nat,
      Policy.correct_buffer rsCodec0 (.Redundancy 3) [5, 7, 5] = some r ∧
      ∀ c, c < 3 → r.1.getD (c * 1 + 0) 0 = 5 :=
  c4_redundancy_correction_bound rsCodec0 3 1 0 5 [5, 7, 5] (by decide) (by decide)
    (by decide) (by decide) (by decide)

/-- C9: after Policy::correct_buffer for Redundancy(n) with n ≥ 1 on a
buffer whose length is divisible by n, every copy holds the voted byte at
every index (ties of an even n included), so all copies are byte-identical
and Redundancy's is_corrupted on the corrected buffer reports false. -/
theorem c9_correct_makes_copies_identical (codec : RSCodec) (n : Nat) (buffer : List Nat)
    (hn : 1 ≤ n) (hmod : buffer.length % n = 0) :
    ∃ r : List Nat × Nat,
      Policy.correct_buffer codec (.Redundancy n) buffer = some r ∧
      (∀ j, j < buffer.length / n → ∀ c1, c1 < n → ∀ c2, c2 < n →
        r.1.getD (c1 * (buffer.length / n) + j) 0 =
          r.1.getD (c2 * (buffer.length / n) + j) 0) ∧
      Policy.is_corrupted codec (.Redundancy n) r.1 = some false := by
  have hn0 : n ≠ 0 := by omega
  have hlen : buffer.length = n * (buffer.length / n) :=
    (Nat.mul_div_cancel' (Nat.dvd_of_mod_eq_zero hmod)).symm
  obtain ⟨r, hfold, hrlen, _, hhom⟩ :=
    redCorrect_foldlM_uniform n (buffer.length / n) hn0 (List.range (buffer.length / n))
      (fun j hj => List.mem_range.mp hj) buffer 0 hlen
  have hcb : Policy.correct_buffer codec (.Redundancy n) buffer = some r := by
    rw [red_correct_buffer_eq codec n (buffer.length / n) buffer hn0 hlen]
    exact hfold
  refine ⟨r, hcb, ?_, ?_⟩
  · intro j hj c1 hc1 c2 hc2
    exact hhom j (List.mem_range.mpr hj) c1 hc1 c2 hc2
  · have hrmod : r.1.length % n = 0 := by
      rw [hrlen]; exact Nat.mul_mod_right n _
    have hrdiv : r.1.length / n = buffer.length / n := by
      rw [hrlen]; exact Nat.mul_div_cancel_left _ (by omega)
    have hLle : buffer.length / n ≤ r.1.length := by
      rw [hrlen]
      calc buffer.length / n = 1 * (buffer.length / n) := (Nat.one_mul _).symm
        _ ≤ n * (buffer.length / n) := Nat.mul_le_mul_right _ hn
    have hsplit : (Policy.Redundancy n).split_buffer r.1 =
        some (r.1.take (buffer.length / n), r.1.drop (buffer.length / n)) := by
      simp [Policy.split_buffer, Policy.data_len, hn0, hrmod, hrdiv]
    have htlen : (r.1.take (buffer.length / n)).length = buffer.length / n := by
      rw [List.length_take]
      exact Nat.min_eq_left hLle
    unfold Policy.is_corrupted
    rw [hsplit, Option.map_some']
    refine congrArg some ?_
    rw [htlen, List.any_eq_false]
    intro byte hbyte
    rw [Bool.not_eq_true, List.any_eq_false]
    intro copy hcopy
    obtain ⟨i, hilt, hie⟩ := List.mem_range'.mp hcopy
    have hc1 : copy < n := by omega
    simp only [decide_eq_true_eq, ne_eq, not_not]
    have h0 := hhom byte hbyte copy hc1 0 (by omega)
    rw [Nat.zero_mul, Nat.zero_add] at h0
    exact h0

/-- C9 witness: Redundancy(2) on the two copy bytes 0x01 and 0x00 (an even
tie at bit 0): after correction both copies agree and is_corrupted reports
false. -/
theorem c9_correct_makes_copies_identical_witness :
    ∃ r : List Nat × Nat,
      Policy.correct_buffer rsCodec0 (.Redundancy 2) [1, 0] = some r ∧
      (∀ j, j < ([1, 0] : List Nat).length / 2 → ∀ c1, c1 < 2 → ∀ c2, c2 < 2 →
        r.1.getD (c1 * (([1, 0] : List Nat).length / 2) + j) 0 =
          r.1.getD (c2 * (([1, 0] : List Nat).length / 2) + j) 0) ∧
      Policy.is_corrupted rsCodec0 (.Redundancy 2) r.1 = some false :=
  c9_correct_makes_copies_identical rsCodec0 2 [1, 0] (by decide) (by decide)

/-- C10 witness: concrete instances of the amended conjuncts — a zero
element size with a Redundancy node returns null; a zero member count with
element size 4 and an Encrypted-only list allocates a length-0 block; a
Redundancy(3) node together with an Encrypted node also allocates a
length-0 block; a lone Redundancy node (default parameter 3) panics. -/
theorem c10_zero_size_checks_witness :
    er_calloc rsCodec0 ks0 7 0 [⟨.Redundancy, some 3⟩] = some none ∧
    (∃ b : AllocBlock, er_calloc rsCodec0 ks0 0 4 [⟨.Encrypted, none⟩] = some (some b) ∧
      b.length = 0) ∧
    (∃ b : AllocBlock,
      er_calloc rsCodec0 ks0 0 1 [⟨.Redundancy, some 3⟩, ⟨.Encrypted, none⟩] = some (some b) ∧
      b.length = 0) ∧
    er_calloc rsCodec0 ks0 0 2 [⟨.Redundancy, none⟩] = none :=
  ⟨(c10_zero_size_checks rsCodec0 ks0).1 [⟨.Redundancy, some 3⟩] 7,
   (c10_zero_size_checks rsCodec0 ks0).2.1 [⟨.Encrypted, none⟩] 4 (by decide) (by decide)
     (by decide),
   (c10_zero_size_checks rsCodec0 ks0).2.2.1 [⟨.Redundancy, some 3⟩, ⟨.Encrypted, none⟩] 1 3
     (by decide) (by decide) (by decide) (by decide) (by decide) (by decide),
   (c10_zero_size_checks rsCodec0 ks0).2.2.2 [⟨.Redundancy, none⟩] 2 3
     (by decide) (by decide) (by decide) (by decide) (by decide)⟩

end Ermalloc
